import Mathlib

/-!
Verification of the cross-venue arbitrage / LP-management repository.

The Rust sources are shallowly embedded: `f64` values are idealized as
rationals (`ℚ`) where the code only uses field arithmetic and comparisons,
and as reals (`ℝ`) where `sqrt` is involved; `anyhow::Result` becomes
`Except String`.  Each definition mirrors one Rust function.
-/

namespace Cex

/-- The three CEX venues wired into `CexClients` (src/cex/mod.rs). -/
inductive Venue
  | binance
  | bybit
  | okx
deriving DecidableEq, Repr

/-- One order-book level, `PriceLevel` in src/cex/mod.rs. -/
structure PriceLevel where
  price : ℚ
  quantity : ℚ
deriving DecidableEq, Repr

/-- An order book, `OrderBook` in src/cex/mod.rs: bids, asks, timestamp. -/
structure OrderBook where
  bids : List PriceLevel
  asks : List PriceLevel
  timestamp : ℕ
deriving DecidableEq, Repr

/-- The top-of-book level of one side of a venue's book, tagged with the
venue, mirroring `xxx_ob.bids.first()` in `execute_arbitrage`. -/
def topOf (v : Venue) (levels : List PriceLevel) : Option (Venue × PriceLevel) :=
  levels.head?.map (fun l => (v, l))

/-- The flattened candidate list
`vec![binance_ob.side.first(), bybit_ob.side.first(), okx_ob.side.first()].into_iter().flatten()`
of `execute_arbitrage`, with each surviving level tagged by its venue. -/
def candidates (side : OrderBook → List PriceLevel) (b1 b2 b3 : OrderBook) :
    List (Venue × PriceLevel) :=
  ([topOf Venue.binance (side b1), topOf Venue.bybit (side b2),
    topOf Venue.okx (side b3)]).filterMap id

/-- One step of Rust's `Iterator::max_by` on prices: on ties the later
element wins (Rust `max_by` keeps the last of equally maximal elements). -/
def maxStep (acc : Option (Venue × PriceLevel)) (x : Venue × PriceLevel) :
    Option (Venue × PriceLevel) :=
  match acc with
  | none => some x
  | some b => if b.2.price ≤ x.2.price then some x else some b

/-- Rust's `max_by(|a, b| a.price.partial_cmp(&b.price).unwrap())`. -/
def maxByPrice (l : List (Venue × PriceLevel)) : Option (Venue × PriceLevel) :=
  l.foldl maxStep none

/-- One step of Rust's `Iterator::min_by` on prices: on ties the earlier
element wins (Rust `min_by` keeps the first of equally minimal elements). -/
def minStep (acc : Option (Venue × PriceLevel)) (x : Venue × PriceLevel) :
    Option (Venue × PriceLevel) :=
  match acc with
  | none => some x
  | some b => if x.2.price < b.2.price then some x else some b

/-- Rust's `min_by(|a, b| a.price.partial_cmp(&b.price).unwrap())`. -/
def minByPrice (l : List (Venue × PriceLevel)) : Option (Venue × PriceLevel) :=
  l.foldl minStep none

/-- The decision data computed by `execute_arbitrage`: the selected best bid
and best ask (with their venues), the profit `best_bid.price - best_ask.price`,
and whether the execution branch `if profit > min_profit_threshold` was taken
(the branch body is `todo!("Implement arbitrage execution")` in the source). -/
structure ArbOutcome where
  bestBid : Venue × PriceLevel
  bestAsk : Venue × PriceLevel
  profit : ℚ
  emitted : Bool
deriving DecidableEq, Repr

/-- Shallow embedding of `execute_arbitrage` (src/cex/mod.rs lines 116-166):
takes the three venues' order books and the profit threshold, picks the
maximal top-of-book bid and the minimal top-of-book ask across all three
venues (no venue exclusion appears in the source), computes
`profit = best_bid.price - best_ask.price` (no fee or slippage terms appear
in the source), and enters the execution branch iff `profit > threshold`. -/
def execute_arbitrage (binance_ob bybit_ob okx_ob : OrderBook)
    (min_profit_threshold : ℚ) : Except String ArbOutcome :=
  match maxByPrice (candidates OrderBook.bids binance_ob bybit_ob okx_ob) with
  | none => Except.error "No bids available"
  | some best_bid =>
    match minByPrice (candidates OrderBook.asks binance_ob bybit_ob okx_ob) with
    | none => Except.error "No asks available"
    | some best_ask =>
      let profit := best_bid.2.price - best_ask.2.price
      Except.ok ⟨best_bid, best_ask, profit, decide (min_profit_threshold < profit)⟩

/-- One iteration of the selection loop in `get_best_price_across_exchanges`:
a failed ticker fetch is skipped; a successful price replaces the running
best only when strictly greater (`p > best_price.unwrap()`), so the first of
equal prices is kept. -/
def bestStep (acc : Option (ℚ × String)) (entry : Except String ℚ × String) :
    Option (ℚ × String) :=
  match entry.1 with
  | Except.error _ => acc
  | Except.ok p =>
    match acc with
    | none => some (p, entry.2)
    | some best => if best.1 < p then some (p, entry.2) else some best

/-- Shallow embedding of `get_best_price_across_exchanges`
(src/cex/mod.rs lines 84-114): given the three venues' ticker results, scan
them in order Binance, Bybit, OKX keeping the running maximum among the
successful ones; fail with "No valid prices available" when none succeeded. -/
def get_best_price_across_exchanges (binance_price bybit_price okx_price : Except String ℚ) :
    Except String (ℚ × String) :=
  match ([(binance_price, "Binance"), (bybit_price, "Bybit"),
          (okx_price, "OKX")]).foldl bestStep none with
  | some (price, exchange) => Except.ok (price, exchange)
  | none => Except.error "No valid prices available"

end Cex

namespace Oracles

/-- Shallow embedding of the oracle blend `get_best_price`
(src/oracles/mod.rs lines 52-70): with two successful feeds it returns the
plain arithmetic mean `(pyth + switchboard) / 2.0` (the source takes no
confidence inputs at all); with exactly one success it returns that price
unchanged; with two failures it fails. -/
def get_best_price (pyth_price switchboard_price : Except String ℚ) : Except String ℚ :=
  match pyth_price, switchboard_price with
  | Except.ok pyth, Except.ok switchboard => Except.ok ((pyth + switchboard) / 2)
  | Except.ok price, Except.error _ => Except.ok price
  | Except.error _, Except.ok price => Except.ok price
  | Except.error e1, Except.error e2 =>
      Except.error ("Both price feeds failed: " ++ e1 ++ ", " ++ e2)

/-- The specification's confidence-weighted blend of two oracle quotes,
stated from the spec's words ("combine by confidence-weighted average,
tighter confidence interval weighted more"): each price is weighted by the
reciprocal of its confidence width.  Used only to compare against the
source's `get_best_price`, which ignores confidence. -/
def specConfidenceWeightedBlend (p1 c1 p2 c2 : ℚ) : ℚ :=
  (p1 / c1 + p2 / c2) / (1 / c1 + 1 / c2)

/-- Shallow embedding of `validate_pyth_price` (src/oracles/pyth.rs lines
80-87): `price > 0.0 && confidence > 0.0 && confidence < price * 0.1`. -/
def validate_pyth_price (price confidence : ℚ) : Bool :=
  decide (0 < price) && decide (0 < confidence) && decide (confidence < price * (1 / 10))

end Oracles

namespace Dex

/-- Shallow embedding of `calculate_optimal_range` (src/dex/mod.rs lines
67-75): `range = volatility * time_horizon.sqrt()`; bounds
`(current_price * (1.0 - range), current_price * (1.0 + range))`. -/
noncomputable def calculate_optimal_range (current_price volatility time_horizon : ℝ) :
    ℝ × ℝ :=
  let range := volatility * Real.sqrt time_horizon
  (current_price * (1 - range), current_price * (1 + range))

/-- Shallow embedding of `calculate_rebalance_threshold` (src/dex/mod.rs
lines 77-85): the relative deviation of the current price from the midpoint
of the range, `|current_price - mid_price| / mid_price` with
`mid_price = (min_price + max_price) / 2.0`. -/
noncomputable def calculate_rebalance_threshold (current_price min_price max_price : ℝ) : ℝ :=
  let mid_price := (min_price + max_price) / 2
  |current_price - mid_price| / mid_price

/-- Modelled from the spec: the repository computes the deviation
(`calculate_rebalance_threshold`) but no code under src ever compares it to
the configured `rebalance_threshold`; the spec's trigger rule is
"rebalance fires iff deviation >= rebalanceThreshold (inclusive boundary)". -/
noncomputable def should_rebalance (current_price min_price max_price threshold : ℝ) : Prop :=
  threshold ≤ calculate_rebalance_threshold current_price min_price max_price

end Dex

namespace Metrics

/-- Shallow embedding of `calculate_success_rate` (src/metrics/mod.rs lines
203-209): returns `0.0` when `total == 0`, else `successful / total` (the
`u64` counters are idealized as naturals, the `f64` quotient as a rational). -/
def calculate_success_rate (successful total : ℕ) : ℚ :=
  if total = 0 then 0 else (successful : ℚ) / (total : ℚ)

end Metrics

namespace Cex

/-- Spec scenario book, venue1 (Binance): bid 50010, ask 50020. -/
def sc1_binance : OrderBook := ⟨[⟨50010, 1⟩], [⟨50020, 1⟩], 0⟩

/-- Spec scenario book, venue2 (Bybit): bid 50050, ask 50030. -/
def sc1_bybit : OrderBook := ⟨[⟨50050, 1⟩], [⟨50030, 1⟩], 0⟩

/-- Spec scenario: the third venue (OKX) has an empty book. -/
def sc1_okx : OrderBook := ⟨[], [], 0⟩

/-- What `execute_arbitrage` computes on the spec scenario books with
threshold 1/100: best bid 50050 on Bybit, best ask 50020 on Binance,
profit 30, execution branch taken. -/
def sc1_outcome : ArbOutcome :=
  ⟨(Venue.bybit, ⟨50050, 1⟩), (Venue.binance, ⟨50020, 1⟩), 30, true⟩

/-- A book where Binance holds both the best bid (100) and the best ask
(101) across venues. -/
def cx_binance : OrderBook := ⟨[⟨100, 1⟩], [⟨101, 1⟩], 0⟩

/-- A book whose bid (90) and ask (102) are both worse than Binance's. -/
def cx_bybit : OrderBook := ⟨[⟨90, 1⟩], [⟨102, 1⟩], 0⟩

/-- Empty OKX book for the same-venue selection example. -/
def cx_okx : OrderBook := ⟨[], [], 0⟩

/-- What `execute_arbitrage` computes on the same-venue example: both the
best bid and the best ask come from Binance. -/
def cx_outcome : ArbOutcome :=
  ⟨(Venue.binance, ⟨100, 1⟩), (Venue.binance, ⟨101, 1⟩), -1, false⟩

/-- Boundary book: Binance bid 100, ask 99.9, so the computed profit is
exactly 1/10. -/
def eq_binance : OrderBook := ⟨[⟨100, 1⟩], [⟨999 / 10, 1⟩], 0⟩

/-- Empty Bybit book for the boundary example. -/
def eq_bybit : OrderBook := ⟨[], [], 0⟩

/-- Empty OKX book for the boundary example. -/
def eq_okx : OrderBook := ⟨[], [], 0⟩

/-- What `execute_arbitrage` computes on the boundary books with threshold
exactly equal to the profit 1/10: the execution branch is not taken. -/
def eq_outcome : ArbOutcome :=
  ⟨(Venue.binance, ⟨100, 1⟩), (Venue.binance, ⟨999 / 10, 1⟩), 1 / 10, false⟩

end Cex

namespace Cex

lemma maxStep_isSome (acc : Option (Venue × PriceLevel)) (x : Venue × PriceLevel) :
    (maxStep acc x).isSome := by
  cases acc with
  | none => rfl
  | some b =>
    simp only [maxStep]
    split <;> rfl

lemma minStep_isSome (acc : Option (Venue × PriceLevel)) (x : Venue × PriceLevel) :
    (minStep acc x).isSome := by
  cases acc with
  | none => rfl
  | some b =>
    simp only [minStep]
    split <;> rfl

lemma foldl_maxStep_none {l : List (Venue × PriceLevel)} {acc : Option (Venue × PriceLevel)}
    (h : l.foldl maxStep acc = none) : acc = none ∧ l = [] := by
  induction l generalizing acc with
  | nil => exact ⟨h, rfl⟩
  | cons x xs ih =>
    obtain ⟨h1, -⟩ := ih h
    have := maxStep_isSome acc x
    rw [h1] at this
    cases this

lemma foldl_minStep_none {l : List (Venue × PriceLevel)} {acc : Option (Venue × PriceLevel)}
    (h : l.foldl minStep acc = none) : acc = none ∧ l = [] := by
  induction l generalizing acc with
  | nil => exact ⟨h, rfl⟩
  | cons x xs ih =>
    obtain ⟨h1, -⟩ := ih h
    have := minStep_isSome acc x
    rw [h1] at this
    cases this

lemma foldl_maxStep_mem {l : List (Venue × PriceLevel)} {acc : Option (Venue × PriceLevel)}
    {r : Venue × PriceLevel} (h : l.foldl maxStep acc = some r) :
    acc = some r ∨ r ∈ l := by
  induction l generalizing acc with
  | nil => exact Or.inl h
  | cons x xs ih =>
    rcases ih h with h1 | h1
    · cases acc with
      | none =>
        simp only [maxStep] at h1
        exact Or.inr (by simp [← Option.some_inj.mp h1])
      | some b =>
        simp only [maxStep] at h1
        split at h1
        · exact Or.inr (by simp [← Option.some_inj.mp h1])
        · exact Or.inl h1
    · exact Or.inr (List.mem_cons_of_mem x h1)

lemma foldl_minStep_mem {l : List (Venue × PriceLevel)} {acc : Option (Venue × PriceLevel)}
    {r : Venue × PriceLevel} (h : l.foldl minStep acc = some r) :
    acc = some r ∨ r ∈ l := by
  induction l generalizing acc with
  | nil => exact Or.inl h
  | cons x xs ih =>
    rcases ih h with h1 | h1
    · cases acc with
      | none =>
        simp only [minStep] at h1
        exact Or.inr (by simp [← Option.some_inj.mp h1])
      | some b =>
        simp only [minStep] at h1
        split at h1
        · exact Or.inr (by simp [← Option.some_inj.mp h1])
        · exact Or.inl h1
    · exact Or.inr (List.mem_cons_of_mem x h1)

lemma foldl_maxStep_bound {l : List (Venue × PriceLevel)} {acc : Option (Venue × PriceLevel)}
    {r : Venue × PriceLevel} (h : l.foldl maxStep acc = some r) :
    (∀ a, acc = some a → a.2.price ≤ r.2.price) ∧
      ∀ y ∈ l, y.2.price ≤ r.2.price := by
  induction l generalizing acc with
  | nil =>
    simp only [List.foldl] at h
    refine ⟨fun a ha => ?_, by simp⟩
    rw [h] at ha
    rw [Option.some_inj.mp ha]
  | cons x xs ih =>
    obtain ⟨ihacc, ihmem⟩ := ih h
    have hx : x.2.price ≤ r.2.price := by
      cases acc with
      | none => exact ihacc x rfl
      | some b =>
        by_cases hb : b.2.price ≤ x.2.price
        · exact ihacc x (by simp [maxStep, hb])
        · exact le_trans (le_of_not_le hb) (ihacc b (by simp [maxStep, hb]))
    refine ⟨fun a ha => ?_, ?_⟩
    · subst ha
      by_cases hax : a.2.price ≤ x.2.price
      · exact le_trans hax (ihacc x (by simp [maxStep, hax]))
      · exact ihacc a (by simp [maxStep, hax])
    · intro y hy
      rcases List.mem_cons.mp hy with hy | hy
      · rw [hy]; exact hx
      · exact ihmem y hy

lemma foldl_minStep_bound {l : List (Venue × PriceLevel)} {acc : Option (Venue × PriceLevel)}
    {r : Venue × PriceLevel} (h : l.foldl minStep acc = some r) :
    (∀ a, acc = some a → r.2.price ≤ a.2.price) ∧
      ∀ y ∈ l, r.2.price ≤ y.2.price := by
  induction l generalizing acc with
  | nil =>
    simp only [List.foldl] at h
    refine ⟨fun a ha => ?_, by simp⟩
    rw [h] at ha
    rw [Option.some_inj.mp ha]
  | cons x xs ih =>
    obtain ⟨ihacc, ihmem⟩ := ih h
    have hx : r.2.price ≤ x.2.price := by
      cases acc with
      | none => exact ihacc x rfl
      | some b =>
        by_cases hb : x.2.price < b.2.price
        · exact ihacc x (by simp [minStep, hb])
        · exact le_trans (ihacc b (by simp [minStep, hb])) (le_of_not_lt hb)
    refine ⟨fun a ha => ?_, ?_⟩
    · subst ha
      by_cases hax : x.2.price < a.2.price
      · exact le_trans (ihacc x (by simp [minStep, hax])) (le_of_lt hax)
      · exact ihacc a (by simp [minStep, hax])
    · intro y hy
      rcases List.mem_cons.mp hy with hy | hy
      · rw [hy]; exact hx
      · exact ihmem y hy

lemma bestStep_error (acc : Option (ℚ × String)) (err s : String) :
    bestStep acc (Except.error err, s) = acc := rfl

lemma bestStep_ok_none (p : ℚ) (s : String) :
    bestStep none (Except.ok p, s) = some (p, s) := rfl

lemma bestStep_ok_some (best : ℚ × String) (p : ℚ) (s : String) :
    bestStep (some best) (Except.ok p, s) =
      if best.1 < p then some (p, s) else some best := rfl

lemma foldl_bestStep_none_iff {l : List (Except String ℚ × String)}
    {acc : Option (ℚ × String)} :
    l.foldl bestStep acc = none ↔ acc = none ∧ ∀ e ∈ l, e.1.isOk = false := by
  induction l generalizing acc with
  | nil => simp [List.foldl]
  | cons x xs ih =>
    obtain ⟨x1, x2⟩ := x
    rw [List.foldl_cons, ih]
    constructor
    · rintro ⟨h1, h2⟩
      cases x1 with
      | error err =>
        rw [bestStep_error] at h1
        exact ⟨h1, fun e he => by
          rcases List.mem_cons.mp he with he | he
          · rw [he]; rfl
          · exact h2 e he⟩
      | ok p =>
        exfalso
        cases acc with
        | none => rw [bestStep_ok_none] at h1; cases h1
        | some best =>
          rw [bestStep_ok_some] at h1
          split at h1 <;> cases h1
    · rintro ⟨h1, h2⟩
      subst h1
      cases x1 with
      | error err =>
        exact ⟨by rw [bestStep_error], fun e he => h2 e (List.mem_cons_of_mem _ he)⟩
      | ok p =>
        exact absurd (h2 (Except.ok p, x2) (List.mem_cons_self _ xs))
          (by simp [Except.isOk, Except.toBool])

lemma foldl_bestStep_mem {l : List (Except String ℚ × String)}
    {acc : Option (ℚ × String)} {r : ℚ × String}
    (h : l.foldl bestStep acc = some r) :
    acc = some r ∨ ∃ e ∈ l, e.1 = Except.ok r.1 ∧ e.2 = r.2 := by
  induction l generalizing acc with
  | nil => exact Or.inl h
  | cons x xs ih =>
    obtain ⟨x1, x2⟩ := x
    rcases ih h with h1 | h1
    · cases x1 with
      | error err =>
        rw [bestStep_error] at h1
        exact Or.inl h1
      | ok p =>
        cases acc with
        | none =>
          rw [bestStep_ok_none] at h1
          have := Option.some_inj.mp h1
          exact Or.inr ⟨(Except.ok p, x2), List.mem_cons_self _ xs,
            by rw [← this], by rw [← this]⟩
        | some best =>
          rw [bestStep_ok_some] at h1
          split at h1
          · have := Option.some_inj.mp h1
            exact Or.inr ⟨(Except.ok p, x2), List.mem_cons_self _ xs,
              by rw [← this], by rw [← this]⟩
          · exact Or.inl h1
    · obtain ⟨e, he, hp⟩ := h1
      exact Or.inr ⟨e, List.mem_cons_of_mem _ he, hp⟩

lemma foldl_bestStep_bound {l : List (Except String ℚ × String)}
    {acc : Option (ℚ × String)} {r : ℚ × String}
    (h : l.foldl bestStep acc = some r) :
    (∀ a, acc = some a → a.1 ≤ r.1) ∧
      ∀ e ∈ l, ∀ p, e.1 = Except.ok p → p ≤ r.1 := by
  induction l generalizing acc with
  | nil =>
    simp only [List.foldl] at h
    refine ⟨fun a ha => ?_, by simp⟩
    rw [h] at ha
    rw [Option.some_inj.mp ha]
  | cons x xs ih =>
    obtain ⟨x1, x2⟩ := x
    obtain ⟨ihacc, ihmem⟩ := ih h
    have hx : ∀ p, x1 = Except.ok p → p ≤ r.1 := by
      intro p hp
      subst hp
      cases acc with
      | none => exact ihacc (p, x2) (by rw [bestStep_ok_none])
      | some best =>
        by_cases hb : best.1 < p
        · exact ihacc (p, x2) (by rw [bestStep_ok_some]; simp [hb])
        · exact le_trans (le_of_not_lt hb)
            (ihacc best (by rw [bestStep_ok_some]; simp [hb]))
    refine ⟨fun a ha => ?_, ?_⟩
    · subst ha
      cases x1 with
      | error err => exact ihacc a (by rw [bestStep_error])
      | ok p =>
        by_cases hb : a.1 < p
        · exact le_trans (le_of_lt hb)
            (ihacc (p, x2) (by rw [bestStep_ok_some]; simp [hb]))
        · exact ihacc a (by rw [bestStep_ok_some]; simp [hb])
    · intro e he p hp
      rcases List.mem_cons.mp he with he | he
      · subst he; exact hx p hp
      · exact ihmem e he p hp

lemma execute_arbitrage_ok {b1 b2 b3 : OrderBook} {t : ℚ} {r : ArbOutcome}
    (h : execute_arbitrage b1 b2 b3 t = Except.ok r) :
    maxByPrice (candidates OrderBook.bids b1 b2 b3) = some r.bestBid ∧
      minByPrice (candidates OrderBook.asks b1 b2 b3) = some r.bestAsk ∧
      r.profit = r.bestBid.2.price - r.bestAsk.2.price ∧
      r.emitted = decide (t < r.profit) := by
  rw [execute_arbitrage] at h
  cases hb : maxByPrice (candidates OrderBook.bids b1 b2 b3) with
  | none => rw [hb] at h; cases h
  | some bb =>
    rw [hb] at h
    cases ha : minByPrice (candidates OrderBook.asks b1 b2 b3) with
    | none => simp only at h; rw [ha] at h; cases h
    | some ba =>
      simp only at h
      rw [ha] at h
      simp only at h
      injection h with h
      subst h
      exact ⟨rfl, rfl, rfl, rfl⟩

/-- C1 (counterexample): on the spec's scenario books (venue1 bid 50010 /
ask 50020, venue2 bid 50050 / ask 50030) with threshold 1/100,
`execute_arbitrage` computes profit 30 — the gross spread with no fee or
slippage deduction — which is positive, and the execution branch IS taken;
the claim's asserted net profit of −70.07 with no opportunity emitted is
therefore false for this code. -/
theorem arb_scenario_positive_profit_emitted :
    execute_arbitrage sc1_binance sc1_bybit sc1_okx (1 / 100) = Except.ok sc1_outcome ∧
      (0 : ℚ) < sc1_outcome.profit ∧ sc1_outcome.emitted = true := by
  refine ⟨?_, by norm_num [sc1_outcome], rfl⟩
  norm_num [execute_arbitrage, candidates, topOf, maxByPrice, minByPrice, maxStep, minStep,
    sc1_binance, sc1_bybit, sc1_okx, sc1_outcome, List.foldl, List.filterMap]

/-- C1 (amended): in every successful arbitrage decision the estimated
profit equals `bestBid.price - bestAsk.price` alone — the source deducts no
venue fees and no slippage estimate (they are marked as future work in the
source's comments). -/
theorem arb_profit_is_gross_spread (b1 b2 b3 : OrderBook) (t : ℚ) (r : ArbOutcome)
    (h : execute_arbitrage b1 b2 b3 t = Except.ok r) :
    r.profit = r.bestBid.2.price - r.bestAsk.2.price :=
  (execute_arbitrage_ok h).2.2.1

/-- C1 (witness): the amended profit formula instantiated on the spec's
scenario books. -/
theorem arb_profit_is_gross_spread_witness :
    sc1_outcome.profit = sc1_outcome.bestBid.2.price - sc1_outcome.bestAsk.2.price :=
  arb_profit_is_gross_spread sc1_binance sc1_bybit sc1_okx (1 / 100) sc1_outcome
    (by norm_num [execute_arbitrage, candidates, topOf, maxByPrice, minByPrice, maxStep,
      minStep, sc1_binance, sc1_bybit, sc1_okx, sc1_outcome, List.foldl, List.filterMap])

/-- C2 (counterexample): with Binance's book at bid 100 / ask 101 and
Bybit's at bid 90 / ask 102, `execute_arbitrage` selects Binance for both
the best bid and the best ask — the source never excludes the best-bid
venue when minimizing over asks, so the two venues coincide, falsifying
"the emitted buy venue and sell venue are never the same venue". -/
theorem arb_same_venue_selected :
    execute_arbitrage cx_binance cx_bybit cx_okx 0 = Except.ok cx_outcome ∧
      cx_outcome.bestBid.1 = cx_outcome.bestAsk.1 := by
  refine ⟨?_, rfl⟩
  norm_num [execute_arbitrage, candidates, topOf, maxByPrice, minByPrice, maxStep, minStep,
    cx_binance, cx_bybit, cx_okx, cx_outcome, List.foldl, List.filterMap]

/-- C2 (amended): in every successful arbitrage decision, `bestBid` is a
maximal top-of-book bid among all venues that have one, and `bestAsk` is a
minimal top-of-book ask among ALL venues that have one — including the
venue holding `bestBid`, so the buy and sell venue may coincide. -/
theorem arb_best_selection_no_exclusion (b1 b2 b3 : OrderBook) (t : ℚ) (r : ArbOutcome)
    (h : execute_arbitrage b1 b2 b3 t = Except.ok r) :
    (r.bestBid ∈ candidates OrderBook.bids b1 b2 b3 ∧
      ∀ y ∈ candidates OrderBook.bids b1 b2 b3, y.2.price ≤ r.bestBid.2.price) ∧
    (r.bestAsk ∈ candidates OrderBook.asks b1 b2 b3 ∧
      ∀ y ∈ candidates OrderBook.asks b1 b2 b3, r.bestAsk.2.price ≤ y.2.price) := by
  obtain ⟨hb, ha, -, -⟩ := execute_arbitrage_ok h
  constructor
  · constructor
    · rcases foldl_maxStep_mem hb with hc | hc
      · cases hc
      · exact hc
    · exact (foldl_maxStep_bound hb).2
  · constructor
    · rcases foldl_minStep_mem ha with hc | hc
      · cases hc
      · exact hc
    · exact (foldl_minStep_bound ha).2

/-- C2 (witness): the amended selection property instantiated on the
same-venue example books. -/
theorem arb_best_selection_no_exclusion_witness :
    (cx_outcome.bestBid ∈ candidates OrderBook.bids cx_binance cx_bybit cx_okx ∧
      ∀ y ∈ candidates OrderBook.bids cx_binance cx_bybit cx_okx,
        y.2.price ≤ cx_outcome.bestBid.2.price) ∧
    (cx_outcome.bestAsk ∈ candidates OrderBook.asks cx_binance cx_bybit cx_okx ∧
      ∀ y ∈ candidates OrderBook.asks cx_binance cx_bybit cx_okx,
        cx_outcome.bestAsk.2.price ≤ y.2.price) :=
  arb_best_selection_no_exclusion cx_binance cx_bybit cx_okx 0 cx_outcome
    (by norm_num [execute_arbitrage, candidates, topOf, maxByPrice, minByPrice, maxStep,
      minStep, cx_binance, cx_bybit, cx_okx, cx_outcome, List.foldl, List.filterMap])

/-- C3 (confirmed): `execute_arbitrage` takes its execution branch exactly
when the computed profit is strictly greater than `min_profit_threshold`;
at exact equality the branch is not taken. -/
theorem arb_emission_iff_strict_threshold (b1 b2 b3 : OrderBook) (t : ℚ) (r : ArbOutcome)
    (h : execute_arbitrage b1 b2 b3 t = Except.ok r) :
    r.emitted = true ↔ t < r.profit := by
  obtain ⟨-, -, -, he⟩ := execute_arbitrage_ok h
  rw [he]
  exact decide_eq_true_iff

/-- C3 (witness): on a book with spread exactly 1/10 and threshold 1/10,
the decision is computed and the execution branch is not taken. -/
theorem arb_emission_iff_strict_threshold_witness :
    (execute_arbitrage eq_binance eq_bybit eq_okx (1 / 10) = Except.ok eq_outcome) ∧
      (eq_outcome.emitted = true ↔ (1 : ℚ) / 10 < eq_outcome.profit) := by
  have hok : execute_arbitrage eq_binance eq_bybit eq_okx (1 / 10) = Except.ok eq_outcome := by
    norm_num [execute_arbitrage, candidates, topOf, maxByPrice, minByPrice, maxStep, minStep,
      eq_binance, eq_bybit, eq_okx, eq_outcome, List.foldl, List.filterMap]
  exact ⟨hok, arb_emission_iff_strict_threshold eq_binance eq_bybit eq_okx (1 / 10) eq_outcome hok⟩

/-- C4 (counterexample): with all three tickers fresh at prices 1, 2, 3,
`get_best_price_across_exchanges` returns (3, "OKX") — the maximum — which
is not the minimum of the fresh entries (1 is), so the function cannot
serve the claimed buy-side minimum query; the source has no side
parameter at all. -/
theorem best_price_not_buy_side_min :
    get_best_price_across_exchanges (Except.ok 1) (Except.ok 2) (Except.ok 3) =
        Except.ok (3, "OKX") ∧
      ¬((3 : ℚ) ≤ 1) := by
  refine ⟨?_, by norm_num⟩
  norm_num [get_best_price_across_exchanges, bestStep, List.foldl]

/-- C4 (amended): `get_best_price_across_exchanges` fails (with
"No valid prices available") exactly when none of the three ticker fetches
succeeded, and on success it returns the maximum price among the successful
fetches paired with that venue's name — one fixed extreme, with no
buy-side / sell-side distinction in the source. -/
theorem best_price_max_among_successes (b y o : Except String ℚ) :
    (get_best_price_across_exchanges b y o = Except.error "No valid prices available" ↔
      b.isOk = false ∧ y.isOk = false ∧ o.isOk = false) ∧
    ∀ p e, get_best_price_across_exchanges b y o = Except.ok (p, e) →
      (∃ entry ∈ [(b, "Binance"), (y, "Bybit"), (o, "OKX")],
          entry.1 = Except.ok p ∧ entry.2 = e) ∧
      ∀ entry ∈ [(b, "Binance"), (y, "Bybit"), (o, "OKX")],
        ∀ q, entry.1 = Except.ok q → q ≤ p := by
  constructor
  · rw [get_best_price_across_exchanges]
    cases hf : ([(b, "Binance"), (y, "Bybit"), (o, "OKX")]).foldl bestStep none with
    | none =>
      obtain ⟨-, hall⟩ := foldl_bestStep_none_iff.mp hf
      simp only [List.mem_cons, List.not_mem_nil, or_false] at hall
      constructor
      · intro _
        exact ⟨hall (b, "Binance") (Or.inl rfl), hall (y, "Bybit") (Or.inr (Or.inl rfl)),
          hall (o, "OKX") (Or.inr (Or.inr rfl))⟩
      · intro _
        rfl
    | some best =>
      obtain ⟨p0, e0⟩ := best
      constructor
      · intro hcon
        cases hcon
      · rintro ⟨hb, hy, ho⟩
        exfalso
        have hnone : ([(b, "Binance"), (y, "Bybit"), (o, "OKX")]).foldl bestStep none = none := by
          refine foldl_bestStep_none_iff.mpr ⟨rfl, ?_⟩
          intro entry hm
          simp only [List.mem_cons, List.not_mem_nil, or_false] at hm
          rcases hm with hm | hm | hm <;> subst hm <;> assumption
        rw [hf] at hnone
        cases hnone
  · intro p e hok
    rw [get_best_price_across_exchanges] at hok
    cases hf : ([(b, "Binance"), (y, "Bybit"), (o, "OKX")]).foldl bestStep none with
    | none => rw [hf] at hok; cases hok
    | some best =>
      obtain ⟨p0, e0⟩ := best
      rw [hf] at hok
      injection hok with hok
      rw [Prod.mk.injEq] at hok
      obtain ⟨h1, h2⟩ := hok
      subst h1
      subst h2
      constructor
      · rcases foldl_bestStep_mem hf with hc | hc
        · cases hc
        · exact hc
      · exact fun entry hm q hq => (foldl_bestStep_bound hf).2 entry hm q hq

/-- C4 (witness): the amended best-price property instantiated at fresh
tickers 1, 2, 3, where the returned pair is (3, "OKX"). -/
theorem best_price_max_among_successes_witness :
    (∃ entry ∈ [((Except.ok 1 : Except String ℚ), "Binance"), (Except.ok 2, "Bybit"),
        (Except.ok 3, "OKX")], entry.1 = Except.ok (3 : ℚ) ∧ entry.2 = "OKX") ∧
      ∀ entry ∈ [((Except.ok 1 : Except String ℚ), "Binance"), (Except.ok 2, "Bybit"),
        (Except.ok 3, "OKX")], ∀ q, entry.1 = Except.ok q → q ≤ 3 :=
  (best_price_max_among_successes (Except.ok 1) (Except.ok 2) (Except.ok 3)).2 3 "OKX"
    (by norm_num [get_best_price_across_exchanges, bestStep, List.foldl])

end Cex

namespace Oracles

/-- C5 (counterexample): on fresh prices 100 and 200, the source's
`get_best_price` returns 150, the plain unweighted mean — it takes no
confidence inputs at all — whereas the confidence-weighted average with
widths 1 (pyth, tighter) and 3 (switchboard) is 125 ≠ 150, so the blended
result is not the confidence-weighted average. -/
theorem blend_ignores_confidence :
    get_best_price (Except.ok 100) (Except.ok 200) = Except.ok 150 ∧
      specConfidenceWeightedBlend 100 1 200 3 = 125 ∧ (150 : ℚ) ≠ 125 := by
  refine ⟨by norm_num [get_best_price], ?_, by norm_num⟩
  norm_num [specConfidenceWeightedBlend]

/-- C5 (amended): when both oracle feeds are fresh, `get_best_price`
returns the plain arithmetic mean of the two prices, ignoring confidence;
when exactly one is fresh, that price is returned unchanged; when neither
is fresh, the call fails. -/
theorem blend_cases (p q : ℚ) (e1 e2 : String) :
    get_best_price (Except.ok p) (Except.ok q) = Except.ok ((p + q) / 2) ∧
      get_best_price (Except.ok p) (Except.error e2) = Except.ok p ∧
      get_best_price (Except.error e1) (Except.ok q) = Except.ok q ∧
      (get_best_price (Except.error e1) (Except.error e2)).isOk = false :=
  ⟨rfl, rfl, rfl, rfl⟩

/-- C10 (confirmed): `validate_pyth_price` accepts a quote exactly when the
price is strictly positive, the confidence width is strictly positive, and
the confidence width is strictly below one tenth of the price. -/
theorem validate_pyth_price_iff (price confidence : ℚ) :
    validate_pyth_price price confidence = true ↔
      0 < price ∧ 0 < confidence ∧ confidence < price * (1 / 10) := by
  simp [validate_pyth_price, and_assoc]

end Oracles

namespace Metrics

/-- C9 (confirmed): `calculate_success_rate` never divides by zero — at
`total = 0` it returns 0 by the explicit guard, otherwise it returns
`successful / total`, and for `0 < total` with `successful ≤ total` the
result lies in [0, 1], hence is a finite value. -/
theorem success_rate_safe (successful total : ℕ) :
    calculate_success_rate successful 0 = 0 ∧
      (total ≠ 0 → calculate_success_rate successful total = (successful : ℚ) / total) ∧
      (0 < total → successful ≤ total →
        0 ≤ calculate_success_rate successful total ∧
          calculate_success_rate successful total ≤ 1) := by
  refine ⟨by simp [calculate_success_rate], fun h => by simp [calculate_success_rate, h],
    fun hpos hle => ?_⟩
  rw [calculate_success_rate, if_neg (Nat.pos_iff_ne_zero.mp hpos)]
  have ht : (0 : ℚ) < total := by exact_mod_cast hpos
  constructor
  · positivity
  · rw [div_le_one ht]
    exact_mod_cast hle

/-- C9 (witness): the success-rate properties instantiated at 3 successes
out of 4. -/
theorem success_rate_safe_witness :
    calculate_success_rate 3 0 = 0 ∧
      calculate_success_rate 3 4 = (3 : ℚ) / 4 ∧
      0 ≤ calculate_success_rate 3 4 ∧ calculate_success_rate 3 4 ≤ 1 := by
  obtain ⟨h0, hdiv, hbnd⟩ := success_rate_safe 3 4
  exact ⟨h0, by exact_mod_cast hdiv (by norm_num), hbnd (by norm_num) (by norm_num)⟩

end Metrics

namespace Dex

/-- C6 (confirmed): `calculate_optimal_range` returns exactly the bounds
`(p * (1 - range), p * (1 + range))` with `range = v * sqrt t`, for every
current price `p`, volatility `v` and time horizon `t`. -/
theorem optimal_range_formula (p v t : ℝ) :
    calculate_optimal_range p v t =
      (p * (1 - v * Real.sqrt t), p * (1 + v * Real.sqrt t)) := rfl

/-- C7 (confirmed, trigger modelled from the spec): the computed rebalance
deviation is `|current - mid| / mid` for `mid = (min + max) / 2`, the
spec-modelled trigger fires exactly when the deviation reaches the
threshold (inclusive), and on the spec's boundary examples with midpoint
100 and threshold 1/20: current price 106 (deviation 6/100) triggers while
104.9 (deviation 49/1000) does not. -/
theorem rebalance_deviation_and_trigger :
    (∀ current mn mx threshold : ℝ,
      calculate_rebalance_threshold current mn mx =
        |current - (mn + mx) / 2| / ((mn + mx) / 2) ∧
      (should_rebalance current mn mx threshold ↔
        threshold ≤ |current - (mn + mx) / 2| / ((mn + mx) / 2))) ∧
    should_rebalance 106 80 120 (1 / 20) ∧
    ¬should_rebalance (1049 / 10) 80 120 (1 / 20) := by
  refine ⟨fun current mn mx threshold => ⟨rfl, Iff.rfl⟩, ?_, ?_⟩
  · rw [should_rebalance, calculate_rebalance_threshold]
    have h6 : |(106 : ℝ) - (80 + 120) / 2| = 6 := by
      rw [abs_of_nonneg] <;> norm_num
    rw [h6]
    norm_num
  · rw [should_rebalance, calculate_rebalance_threshold]
    have h49 : |(1049 : ℝ) / 10 - (80 + 120) / 2| = 49 / 10 := by
      rw [abs_of_nonneg] <;> norm_num
    rw [h49]
    norm_num

/-- C8 (confirmed): `calculate_optimal_range` is a pure function — equal
inputs give equal bounds — and feeding the bounds computed from a price `p`
back into `calculate_rebalance_threshold` at that same price yields
deviation 0, so with any strictly positive threshold no rebalance is
triggered right after a rebalance. -/
theorem range_deterministic_idempotent :
    (∀ p v t p2 v2 t2 : ℝ, p = p2 → v = v2 → t = t2 →
      calculate_optimal_range p v t = calculate_optimal_range p2 v2 t2) ∧
    (∀ p v t : ℝ, p ≠ 0 →
      calculate_rebalance_threshold p (calculate_optimal_range p v t).1
        (calculate_optimal_range p v t).2 = 0) ∧
    (∀ p v t threshold : ℝ, p ≠ 0 → 0 < threshold →
      ¬should_rebalance p (calculate_optimal_range p v t).1
        (calculate_optimal_range p v t).2 threshold) := by
  have hdev : ∀ p v t : ℝ, p ≠ 0 →
      calculate_rebalance_threshold p (calculate_optimal_range p v t).1
        (calculate_optimal_range p v t).2 = 0 := by
    intro p v t hp
    rw [calculate_optimal_range, calculate_rebalance_threshold]
    simp only
    have hmid : (p * (1 - v * Real.sqrt t) + p * (1 + v * Real.sqrt t)) / 2 = p := by
      ring
    rw [hmid, sub_self, abs_zero, zero_div]
  refine ⟨?_, hdev, ?_⟩
  · intro p v t p2 v2 t2 h1 h2 h3
    rw [h1, h2, h3]
  · intro p v t threshold hp hth
    rw [should_rebalance, hdev p v t hp]
    exact not_le_of_lt hth

/-- C8 (witness): the determinism and zero-deviation properties
instantiated at price 100, volatility 1/10, horizon 1, threshold 1/20. -/
theorem range_deterministic_idempotent_witness :
    calculate_optimal_range 100 (1 / 10) 1 = calculate_optimal_range 100 (1 / 10) 1 ∧
      calculate_rebalance_threshold 100 (calculate_optimal_range 100 (1 / 10) 1).1
        (calculate_optimal_range 100 (1 / 10) 1).2 = 0 ∧
      ¬should_rebalance 100 (calculate_optimal_range 100 (1 / 10) 1).1
        (calculate_optimal_range 100 (1 / 10) 1).2 (1 / 20) :=
  ⟨range_deterministic_idempotent.1 100 (1 / 10) 1 100 (1 / 10) 1 rfl rfl rfl,
    range_deterministic_idempotent.2.1 100 (1 / 10) 1 (by norm_num),
    range_deterministic_idempotent.2.2 100 (1 / 10) 1 (1 / 20) (by norm_num) (by norm_num)⟩

end Dex
